import Mathlib

/-!
Shallow embedding of the pyncoin core (blockchain.py, transaction.py,
transaction_pool.py, wallet.py) and proofs about the claims of its
specification.

Modelling conventions:

* Python `bytes` is `Bytes := List Nat` (one `Nat` per byte).
* Python `Decimal` amounts and `datetime` timestamps are modelled as `ℚ`
  (`Decimal` values are exact rationals, closed under the `+`, `-`, `==`,
  `<` operations the source uses; `as_integer_ratio` is `Rat.num`/`Rat.den`,
  both in lowest terms, exactly as in Python).
* SHA-256 (`sha : Bytes → Bytes`), ECDSA signature verification
  (`ver : signature → address → message → Bool`), ECDSA signing
  (`sgn : private_key → message → Bytes`) and public-key derivation
  (`pub : private_key → Bytes`) are abstract parameters: no claim depends on
  a property of the concrete algorithms, so every theorem is proved for all
  instantiations, and counterexamples instantiate them with concrete
  functions.  `ecdsa.VerifyingKey.from_string` is idealised as total.
* A Python function that can raise an exception is modelled with an `Option`
  result, `none` meaning "raises".  Two exception sources matter to the
  claims and are modelled exactly:
  - `utils.int_to_bytes` raises `binascii.Error` on a negative int, so
    `Transaction.get_id` raises whenever some output amount has a negative
    numerator (`amount.as_integer_ratio()` then yields a negative `num`);
  - in `TxIn.validate`, the logging line
    `print(... bytes_to_hex(self.signature) ...)` runs after the referenced
    UTXO was found and raises `TypeError` when the signature is `None`
    (`binascii.hexlify(None)`).
  Likewise `int.to_bytes(8, 'big')` raises outside `[0, 2^64)`, and
  `Blockchain.is_valid_chain` raises `IndexError` on an empty list
  (`blocks[0]`).
* Python `isinstance` structure checks hold by typing except the two with
  content: a `TxIn` signature must not be `None`, and a `TxOut` address must
  have length 48 (`TxOut.is_valid_address`).
* Python `==` on the ledger classes is user-defined: `TxIn.__eq__` ignores
  the signature, `Transaction.__eq__` compares inputs/outputs (not the id),
  `Block.__eq__` compares all attributes with those semantics.  This is the
  `pyEq_*` family below.
* `print` side effects are dropped (except the raising one above); the
  broadcast callback of `Blockchain.replace`/`add_block` is external
  transport and is dropped.
-/

abbrev Bytes := List Nat

/-- Minimal big-endian base-256 digits of `n` (empty for 0).  Structural in a
fuel argument so that it reduces by `decide`; `fuel = n` always suffices. -/
def natToBytesBEAux : Nat → Nat → Bytes
  | 0, _ => []
  | fuel + 1, n => if n = 0 then [] else natToBytesBEAux fuel (n / 256) ++ [n % 256]

def natToBytesBE (n : Nat) : Bytes := natToBytesBEAux n n

/-- utils.int_to_bytes: minimal hex, left-padded to an even number of hex
digits, then unhexlified.  `int_to_bytes 0 = [0]` ('0' is padded to '00'). -/
def int_to_bytes (n : Nat) : Bytes := if n = 0 then [0] else natToBytesBE n

/-- utils.int_to_bytes on a Python int that may be negative:
`format(n, 'x')` of a negative int yields a '-' sign and `unhexlify` raises
`binascii.Error`, hence `none` for negative input. -/
def int_to_bytes_int (n : Int) : Option Bytes :=
  if 0 ≤ n then some (int_to_bytes n.toNat) else none

/-- Python `int.to_bytes(8, byteorder='big')`: 8 bytes, raises
`OverflowError` outside `[0, 2^64)`. -/
def to_bytes_8 (n : Nat) : Option Bytes :=
  if n < 2 ^ 64 then some ((List.range 8).map fun k => n / 256 ^ (7 - k) % 256) else none

def to_bytes_8_int (n : Int) : Option Bytes :=
  if 0 ≤ n then to_bytes_8 n.toNat else none

/-- Python `int(·)` on an exact rational: truncation toward zero. -/
def py_int_of_rat (q : ℚ) : Int := Int.tdiv q.num q.den

/-! Arithmetic on `ℚ` values.  The library's `Rat.add`, `Rat.sub`, `Rat.mul`
and `Rat.inv` are `@[irreducible]`, so closed statements about the embedding
could not be settled by `decide` if the embedding used them directly.  The
`q*` functions below are kernel-reducible implementations of exactly the
same operations — the bridge theorems `qadd_eq`, `qsub_eq`, `qmul_eq`,
`qdiv_eq` and `qsum_eq` below prove them equal to `+`, `-`, `*`, `/` and
`List.sum` — and the embedding uses them wherever the Python source adds,
subtracts, multiplies, divides or sums `Decimal`s or time differences. -/

def qadd (a b : ℚ) : ℚ := mkRat (a.num * b.den + b.num * a.den) (a.den * b.den)

def qsub (a b : ℚ) : ℚ := mkRat (a.num * b.den - b.num * a.den) (a.den * b.den)

def qmul (a b : ℚ) : ℚ := mkRat (a.num * b.num) (a.den * b.den)

def qinv (a : ℚ) : ℚ := Rat.divInt a.den a.num

def qdiv (a b : ℚ) : ℚ := qmul a (qinv b)

/-- Python `sum(...)`: left fold of `+` starting from `0`. -/
def qsum (l : List ℚ) : ℚ := l.foldl qadd 0

/-- Effectful map over a list in the `Option` (exception) monad: Python's
list comprehension `[f(x) for x in l]`, `none` if any element raises. -/
def mapOpt {α β : Type} (f : α → Option β) : List α → Option (List β)
  | [] => some []
  | a :: l =>
    match f a, mapOpt f l with
    | some b, some bs => some (b :: bs)
    | _, _ => none

/-! ## Data model (transaction.py, blockchain.py) -/

structure TxOut where
  address : Bytes
  amount : ℚ
deriving DecidableEq

structure TxIn where
  tx_out_id : Bytes
  tx_out_index : Nat
  signature : Option Bytes
deriving DecidableEq

structure Transaction where
  tx_ins : List TxIn
  tx_outs : List TxOut
  id : Bytes
deriving DecidableEq

structure UnspentTxOut where
  tx_out_id : Bytes
  tx_out_index : Nat
  address : Bytes
  amount : ℚ
deriving DecidableEq

structure Block where
  index : Nat
  previous_hash : Option Bytes
  timestamp : ℚ
  data : List Transaction
  difficulty : Int
  nonce : Nat
  hash : Bytes
deriving DecidableEq

structure Blockchain where
  blocks : List Block
  unspent_tx_outs : List UnspentTxOut
deriving DecidableEq

/-! ## Python `==` semantics of the ledger classes -/

/-- TxIn.__eq__: compares `tx_out_id` and `tx_out_index`, ignores the
signature. -/
def pyEq_TxIn (a b : TxIn) : Bool :=
  a.tx_out_id == b.tx_out_id && a.tx_out_index == b.tx_out_index

/-- TxOut.__eq__: compares address and amount. -/
def pyEq_TxOut (a b : TxOut) : Bool :=
  a.address == b.address && a.amount == b.amount

/-- Python list equality under an element equality. -/
def pyEq_list {α : Type} (eq : α → α → Bool) (a b : List α) : Bool :=
  a.length == b.length && (a.zip b).all fun p => eq p.1 p.2

/-- Transaction.__eq__: compares `tx_ins` and `tx_outs` (with their Python
`==`), not the id. -/
def pyEq_Transaction (a b : Transaction) : Bool :=
  pyEq_list pyEq_TxIn a.tx_ins b.tx_ins && pyEq_list pyEq_TxOut a.tx_outs b.tx_outs

/-- Block.__eq__: `self.__dict__ == other.__dict__`, the `data` lists being
compared with Transaction.__eq__. -/
def pyEq_Block (a b : Block) : Bool :=
  a.index == b.index && a.previous_hash == b.previous_hash
    && a.timestamp == b.timestamp && pyEq_list pyEq_Transaction a.data b.data
    && a.difficulty == b.difficulty && a.nonce == b.nonce && a.hash == b.hash

/-! ## transaction.py -/

/-- TxOut.is_valid_address: the address must be 48 bytes long. -/
def TxOut.is_valid_address (address : Bytes) : Bool := address.length == 48

/-- TxOut.has_valid_structure: `address` is `bytes` of length 48 and
`amount` is a `Decimal` (the isinstance parts hold by typing). -/
def TxOut.has_valid_structure (o : TxOut) : Bool := TxOut.is_valid_address o.address

/-- TxIn.has_valid_structure: `isinstance(self.signature, bytes)` fails
exactly when the signature is `None`; the other isinstance checks hold by
typing. -/
def TxIn.has_valid_structure (i : TxIn) : Bool := i.signature.isSome

/-- Transaction.has_valid_structure. -/
def Transaction.has_valid_structure (tx : Transaction) : Bool :=
  tx.tx_ins.all TxIn.has_valid_structure && tx.tx_outs.all TxOut.has_valid_structure

/-- Serialization of one input inside Transaction.get_id
(`tx_out_id ‖ int_to_bytes(tx_out_index)`); also the grouping key of
TxIn.has_duplicates. -/
def tx_in_id_bytes (i : TxIn) : Bytes := i.tx_out_id ++ int_to_bytes i.tx_out_index

/-- Serialization of one output inside Transaction.get_id
(`address ‖ int_to_bytes(num) ‖ int_to_bytes(denom)`); raises when the
numerator is negative. -/
def tx_out_id_bytes (o : TxOut) : Option Bytes :=
  match int_to_bytes_int o.amount.num with
  | none => none
  | some nb => some (o.address ++ nb ++ int_to_bytes o.amount.den)

/-- Transaction.get_id: SHA-256 over the serialized inputs then outputs;
raises (`none`) iff some output amount has a negative numerator. -/
def Transaction.get_id (sha : Bytes → Bytes) (tx : Transaction) : Option Bytes :=
  match mapOpt tx_out_id_bytes tx.tx_outs with
  | none => none
  | some outsB => some (sha ((tx.tx_ins.map tx_in_id_bytes).flatten ++ outsB.flatten))

/-- UnspentTxOut.find: first element matching on `(tx_out_id, tx_out_index)`. -/
def UnspentTxOut.find (transaction_id : Bytes) (index : Nat)
    (unspent_tx_outs : List UnspentTxOut) : Option UnspentTxOut :=
  unspent_tx_outs.find? fun u => u.tx_out_id == transaction_id && u.tx_out_index == index

/-- TxIn.validate: `some false` when the referenced UTXO is missing; when it
is found, the logging line raises (`none`) on a `None` signature, an empty
signature is falsy so `result` stays `False`, otherwise the outcome is the
ECDSA verification of the signature against the UTXO's address over the
message `tx.id` (`BadSignatureError` is caught and yields `False`). -/
def TxIn.validate (ver : Bytes → Bytes → Bytes → Bool) (i : TxIn) (tx : Transaction)
    (unspent_tx_outs : List UnspentTxOut) : Option Bool :=
  match UnspentTxOut.find i.tx_out_id i.tx_out_index unspent_tx_outs with
  | none => some false
  | some u =>
    match i.signature with
    | none => none
    | some s => some (if s = [] then false else ver s u.address tx.id)

/-- TxIn.get_amount: amount of the referenced UTXO; raises
(`AttributeError`) when it is missing. -/
def TxIn.get_amount (i : TxIn) (unspent_tx_outs : List UnspentTxOut) : Option ℚ :=
  (UnspentTxOut.find i.tx_out_id i.tx_out_index unspent_tx_outs).map (·.amount)

/-- Loop of TxIn.has_duplicates, with the set of already seen keys. -/
def has_duplicates_aux (seen : List Bytes) : List TxIn → Bool
  | [] => false
  | i :: rest =>
    if tx_in_id_bytes i ∈ seen then true
    else has_duplicates_aux (tx_in_id_bytes i :: seen) rest

/-- TxIn.has_duplicates: a repeated key `tx_out_id + int_to_bytes(tx_out_index)`
among the given inputs. -/
def TxIn.has_duplicates (tx_ins : List TxIn) : Bool := has_duplicates_aux [] tx_ins

/-- UnspentTxOut.update_unspent_tx_outs: functional UTXO-set update. -/
def UnspentTxOut.update_unspent_tx_outs (new_transactions : List Transaction)
    (current_unspent_tx_outs : List UnspentTxOut) : List UnspentTxOut :=
  let new_unspent_tx_outs :=
    (new_transactions.map fun tx =>
      tx.tx_outs.enum.map fun p => UnspentTxOut.mk tx.id p.1 p.2.address p.2.amount).flatten
  let consumed_tx_outs :=
    (new_transactions.map fun tx =>
      tx.tx_ins.map fun i => UnspentTxOut.mk i.tx_out_id i.tx_out_index [] 0).flatten
  (current_unspent_tx_outs.filter fun u =>
    (UnspentTxOut.find u.tx_out_id u.tx_out_index consumed_tx_outs).isNone)
    ++ new_unspent_tx_outs

def Transaction.COINBASE_AMOUNT : ℚ := 50

/-- Transaction.validate: id check, then all inputs validate, then the input
total equals the output total. -/
def Transaction.validate (sha : Bytes → Bytes) (ver : Bytes → Bytes → Bytes → Bool)
    (tx : Transaction) (unspent_tx_outs : List UnspentTxOut) : Option Bool :=
  match tx.get_id sha with
  | none => none
  | some gid =>
    if tx.id ≠ gid then some false
    else
      match mapOpt (fun i => TxIn.validate ver i tx unspent_tx_outs) tx.tx_ins with
      | none => none
      | some rs =>
        if ¬ rs.all (fun b => b) then some false
        else
          match mapOpt (fun i => TxIn.get_amount i unspent_tx_outs) tx.tx_ins with
          | none => none
          | some amts =>
            if qsum amts ≠ qsum (tx.tx_outs.map (·.amount)) then some false
            else some true

/-- Transaction.validate_coinbase. -/
def Transaction.validate_coinbase (sha : Bytes → Bytes) (tx : Transaction)
    (block_index : Nat) : Option Bool :=
  match tx.get_id sha with
  | none => none
  | some gid =>
    if tx.id ≠ gid then some false
    else
      match tx.tx_ins with
      | [i] =>
        if i.tx_out_index ≠ block_index then some false
        else
          match tx.tx_outs with
          | [o] => if o.amount ≠ Transaction.COINBASE_AMOUNT then some false else some true
          | _ => some false
      | _ => some false

/-- Transaction.validate_block_transactions: empty batch accepted; else the
first transaction must be a valid coinbase, the duplicate check runs over
the inputs of ALL transactions of the batch (coinbase included), and every
remaining transaction must validate. -/
def Transaction.validate_block_transactions (sha : Bytes → Bytes)
    (ver : Bytes → Bytes → Bytes → Bool) (transactions : List Transaction)
    (unspent_tx_outs : List UnspentTxOut) (block_index : Nat) : Option Bool :=
  match transactions with
  | [] => some true
  | coinbase_tx :: normal_transactions =>
    match Transaction.validate_coinbase sha coinbase_tx block_index with
    | none => none
    | some cv =>
      if ¬ cv then some false
      else if TxIn.has_duplicates
          (((coinbase_tx :: normal_transactions).map Transaction.tx_ins).flatten) then some false
      else
        match mapOpt (fun tx => Transaction.validate sha ver tx unspent_tx_outs)
            normal_transactions with
        | none => none
        | some rs => some (rs.all fun b => b)

/-- Transaction.process_transactions: outer `none` models an exception,
`some none` the Python `None` (reject), `some (some us')` the new UTXO set. -/
def Transaction.process_transactions (sha : Bytes → Bytes)
    (ver : Bytes → Bytes → Bytes → Bool) (transactions : List Transaction)
    (unspent_tx_outs : List UnspentTxOut) (block_index : Nat) :
    Option (Option (List UnspentTxOut)) :=
  if ¬ transactions.all Transaction.has_valid_structure then some none
  else
    match Transaction.validate_block_transactions sha ver transactions unspent_tx_outs
        block_index with
    | none => none
    | some false => some none
    | some true =>
      some (some (UnspentTxOut.update_unspent_tx_outs transactions unspent_tx_outs))

/-- Transaction.coinbase. -/
def Transaction.coinbase (sha : Bytes → Bytes) (address : Bytes) (block_index : Nat) :
    Transaction :=
  let tx_in : TxIn := ⟨[], block_index, some []⟩
  let tx_out : TxOut := ⟨address, Transaction.COINBASE_AMOUNT⟩
  { tx_ins := [tx_in], tx_outs := [tx_out],
    id := (Transaction.get_id sha ⟨[tx_in], [tx_out], []⟩).getD [] }

/-! ## blockchain.py : Block -/

/-- Block.calculate_hash: SHA-256 over
`be8(index) ‖ previous_hash? ‖ be8(int(timestamp)) ‖ tx ids ‖ be8(difficulty) ‖ be8(nonce)`.
Raises when a component cannot be serialized (negative or oversized ints,
an output amount with negative numerator inside a tx id). -/
def Block.calculate_hash (sha : Bytes → Bytes) (index : Nat) (previous_hash : Option Bytes)
    (timestamp : ℚ) (data : List Transaction) (difficulty : Int) (nonce : Nat) :
    Option Bytes :=
  match to_bytes_8 index, to_bytes_8_int (py_int_of_rat timestamp),
      mapOpt (Transaction.get_id sha) data, to_bytes_8_int difficulty, to_bytes_8 nonce with
  | some ib, some tb, some ids, some db, some nb =>
    some (sha (ib ++ previous_hash.getD [] ++ tb ++ ids.flatten ++ db ++ nb))
  | _, _, _, _, _ => none

def Block.calculate_hash_for_block (sha : Bytes → Bytes) (b : Block) : Option Bytes :=
  Block.calculate_hash sha b.index b.previous_hash b.timestamp b.data b.difficulty b.nonce

/-- Block.genesis_block: index 0, no previous hash, timestamp 1528359030,
no data, difficulty 0, nonce 0; the stored hash is computed by `__init__`. -/
def Block.genesis_block (sha : Bytes → Bytes) : Block :=
  { index := 0, previous_hash := none, timestamp := 1528359030, data := [],
    difficulty := 0, nonce := 0,
    hash := (Block.calculate_hash sha 0 none 1528359030 [] 0 0).getD [] }

/-- MSB-first bits of one byte (`BitArray(bytes=...).bin`). -/
def byte_bits (n : Nat) : List Bool := (List.range 8).map fun k => n.testBit (7 - k)

/-- Block.hash_matches_difficulty: the binary expansion starts with
`difficulty` zero bits. -/
def Block.hash_matches_difficulty (hash : Bytes) (difficulty : Int) : Bool :=
  (List.replicate difficulty.toNat false).isPrefixOf ((hash.map byte_bits).flatten)

/-- Block.has_valid_structure: isinstance checks only, which all hold for a
typed block value. -/
def Block.has_valid_structure (_ : Block) : Bool := true

/-- Block.has_valid_hash: the stored hash equals the recomputed one and
satisfies the stored difficulty. -/
def Block.has_valid_hash (sha : Bytes → Bytes) (b : Block) : Option Bool :=
  match Block.calculate_hash_for_block sha b with
  | none => none
  | some ch =>
    if ch ≠ b.hash then some false
    else if ¬ Block.hash_matches_difficulty b.hash b.difficulty then some false
    else some true

/-- Block.is_genesis: Python `==` against the canonical genesis block. -/
def Block.is_genesis (sha : Bytes → Bytes) (b : Block) : Bool :=
  pyEq_Block b (Block.genesis_block sha)

/-- Block.is_valid_timestamp: at most 60s behind the previous block and at
most 60s ahead of the wall clock `now`. -/
def Block.is_valid_timestamp (new_block previous_block : Block) (now : ℚ) : Bool :=
  qsub previous_block.timestamp new_block.timestamp < 60
    && qsub new_block.timestamp now < 60

/-- Block.is_valid_next (`self.is_valid_next(next_block)`). -/
def Block.is_valid_next (sha : Bytes → Bytes) (b next_block : Block) (now : ℚ) :
    Option Bool :=
  if ¬ next_block.has_valid_structure then some false
  else if b.index + 1 ≠ next_block.index then some false
  else if next_block.previous_hash ≠ some b.hash then some false
  else if ¬ Block.is_valid_timestamp next_block b now then some false
  else
    match Block.has_valid_hash sha next_block with
    | none => none
    | some hv => if ¬ hv then some false else some true

/-! ## blockchain.py : Blockchain -/

/-- Loop of Blockchain.is_valid_chain over adjacent pairs. -/
def Blockchain.valid_chain_rest (sha : Bytes → Bytes) (now : ℚ) :
    Block → List Block → Option Bool
  | _, [] => some true
  | prev, b :: rest =>
    match Block.is_valid_next sha prev b now with
    | none => none
    | some v => if ¬ v then some false else Blockchain.valid_chain_rest sha now b rest

/-- Blockchain.is_valid_chain: `blocks[0]` raises `IndexError` on an empty
list; else the first block must equal the canonical genesis block and every
adjacent pair must satisfy `is_valid_next`. -/
def Blockchain.is_valid_chain (sha : Bytes → Bytes) (now : ℚ) (blocks : List Block) :
    Option Bool :=
  match blocks with
  | [] => none
  | b0 :: rest =>
    if ¬ Block.is_genesis sha b0 then some false
    else Blockchain.valid_chain_rest sha now b0 rest

/-- Blockchain.get_latest: `blocks[-1]`, raising on an empty chain. -/
def Blockchain.get_latest (bc : Blockchain) : Option Block := bc.blocks.getLast?

/-- Blockchain.replace: accept iff the received chain is valid and strictly
longer; on accept only `self.blocks` is reassigned (the UTXO set is NOT
touched by the source). -/
def Blockchain.replace (sha : Bytes → Bytes) (bc : Blockchain) (new_blocks : List Block)
    (now : ℚ) : Option (Bool × Blockchain) :=
  match Blockchain.is_valid_chain sha now new_blocks with
  | none => none
  | some v =>
    if v ∧ bc.blocks.length < new_blocks.length then
      some (true, { bc with blocks := new_blocks })
    else some (false, bc)

/-- Blockchain.add_block. -/
def Blockchain.add_block (sha : Bytes → Bytes) (ver : Bytes → Bytes → Bytes → Bool)
    (bc : Blockchain) (block : Block) (now : ℚ) : Option (Bool × Blockchain) :=
  match bc.get_latest with
  | none => none
  | some latest =>
    match Block.is_valid_next sha latest block now with
    | none => none
    | some v =>
      if ¬ v then some (false, bc)
      else
        match Transaction.process_transactions sha ver block.data bc.unspent_tx_outs
            block.index with
        | none => none
        | some none => some (false, bc)
        | some (some result) => some (true, ⟨bc.blocks ++ [block], result⟩)

/-- Blockchain.get_adjusted_difficulty. -/
def Blockchain.get_adjusted_difficulty (bc : Blockchain) : Option Int :=
  match bc.blocks.get? (bc.blocks.length - 10) with
  | none => none
  | some prev_adjusment_block =>
    match bc.get_latest with
    | none => none
    | some latest_block =>
      let time_expected : ℚ := qmul 10 10
      let time_taken : ℚ := qsub latest_block.timestamp prev_adjusment_block.timestamp
      if time_taken < qdiv time_expected 2 then some (prev_adjusment_block.difficulty + 1)
      else if time_taken > qmul time_expected 2 then
        some (max (prev_adjusment_block.difficulty - 1) 0)
      else some prev_adjusment_block.difficulty

/-- Blockchain.get_difficulty. -/
def Blockchain.get_difficulty (bc : Blockchain) : Option Int :=
  match bc.get_latest with
  | none => none
  | some latest_block =>
    if latest_block.index % 10 = 0 ∧ latest_block.index ≠ 0 then
      bc.get_adjusted_difficulty
    else some latest_block.difficulty

/-! ## transaction_pool.py

The pool state is its list of transactions. -/

/-- TransactionPool.ins: all inputs of the pooled transactions. -/
def TransactionPool.ins (pool : List Transaction) : List TxIn :=
  (pool.map Transaction.tx_ins).flatten

/-- TransactionPool.is_valid_transaction: no input of `tx` already appears
(under Python `TxIn.__eq__`) among the pool's inputs. -/
def TransactionPool.is_valid_transaction (pool : List Transaction) (tx : Transaction) :
    Bool :=
  tx.tx_ins.all fun i => !((TransactionPool.ins pool).any fun j => pyEq_TxIn i j)

/-- TransactionPool.add_transaction: reject unless `tx.validate` succeeds and
no input conflicts with the pool; an exception inside `validate` propagates. -/
def TransactionPool.add_transaction (sha : Bytes → Bytes)
    (ver : Bytes → Bytes → Bytes → Bool) (pool : List Transaction) (tx : Transaction)
    (unspent_tx_outs : List UnspentTxOut) : Option (Bool × List Transaction) :=
  match Transaction.validate sha ver tx unspent_tx_outs with
  | none => none
  | some v =>
    if ¬ v ∨ ¬ TransactionPool.is_valid_transaction pool tx then some (false, pool)
    else some (true, pool ++ [tx])

/-- UnspentTxOut.matches_tx_in. -/
def UnspentTxOut.matches_tx_in (u : UnspentTxOut) (i : TxIn) : Bool :=
  u.tx_out_id == i.tx_out_id && u.tx_out_index == i.tx_out_index

/-- TransactionPool.has_tx_in. -/
def TransactionPool.has_tx_in (i : TxIn) (unspent_tx_outs : List UnspentTxOut) : Bool :=
  (unspent_tx_outs.find? fun u => u.matches_tx_in i).isSome

/-- TransactionPool.update: drop every pooled transaction with an input that
no longer references a current UTXO (removal by Python `Transaction.__eq__`). -/
def TransactionPool.update (pool : List Transaction)
    (unspent_tx_outs : List UnspentTxOut) : List Transaction :=
  let invalid_txs :=
    pool.filter fun tx => tx.tx_ins.any fun i => ¬ TransactionPool.has_tx_in i unspent_tx_outs
  if invalid_txs.isEmpty then pool
  else pool.filter fun tx => ¬ invalid_txs.any fun t => pyEq_Transaction tx t

/-- A pool operation of the claimed invariant: `add_transaction` or `update`. -/
inductive PoolOp where
  | add (tx : Transaction) (unspent_tx_outs : List UnspentTxOut)
  | update (unspent_tx_outs : List UnspentTxOut)

/-- One pool operation applied to a pool state (an exception inside `add`
leaves the pool unchanged). -/
def apply_pool_op (sha : Bytes → Bytes) (ver : Bytes → Bytes → Bytes → Bool)
    (pool : List Transaction) : PoolOp → List Transaction
  | .add tx us =>
    match TransactionPool.add_transaction sha ver pool tx us with
    | none => pool
    | some (_, pool') => pool'
  | .update us => TransactionPool.update pool us

/-- A sequence of pool operations run from the empty pool. -/
def run_pool_ops (sha : Bytes → Bytes) (ver : Bytes → Bytes → Bytes → Bool)
    (ops : List PoolOp) : List Transaction :=
  ops.foldl (apply_pool_op sha ver) []

/-! ## wallet.py -/

/-- The UTXOs of the wallet: those whose address is the wallet's public key. -/
def Wallet.my_unspent_tx_outs (pub : Bytes → Bytes) (private_key : Bytes)
    (unspent_tx_outs : List UnspentTxOut) : List UnspentTxOut :=
  unspent_tx_outs.filter fun u => u.address == pub private_key

/-- Loop of Wallet.find_tx_outs_for_amount. -/
def find_tx_outs_aux (amount : ℚ) (included : List UnspentTxOut) (current : ℚ) :
    List UnspentTxOut → Option (List UnspentTxOut × ℚ)
  | [] => none
  | u :: rest =>
    if qadd current u.amount > amount then
      some (included ++ [u], qsub (qadd current u.amount) amount)
    else find_tx_outs_aux amount (included ++ [u]) (qadd current u.amount) rest

/-- Wallet.find_tx_outs_for_amount: greedy accumulation in order until the
running total strictly exceeds `amount`; raises `AssertionError` (`none`)
when the list is exhausted. -/
def Wallet.find_tx_outs_for_amount (amount : ℚ) (my_unspent_tx_outs : List UnspentTxOut) :
    Option (List UnspentTxOut × ℚ) :=
  find_tx_outs_aux amount [] 0 my_unspent_tx_outs

/-- Wallet.create_tx_outs: receiver output, plus a change output when the
left-over amount is positive. -/
def Wallet.create_tx_outs (my_address receiver_address : Bytes) (amount left_over : ℚ) :
    List TxOut :=
  if left_over > 0 then [⟨receiver_address, amount⟩, ⟨my_address, left_over⟩]
  else [⟨receiver_address, amount⟩]

/-- Transaction.sign_input: the referenced UTXO must exist and be owned by
the signing key; the signature is over `tx.id`. -/
def Transaction.sign_input (sgn : Bytes → Bytes → Bytes) (pub : Bytes → Bytes)
    (tx : Transaction) (i : TxIn) (private_key : Bytes)
    (unspent_tx_outs : List UnspentTxOut) : Option Bytes :=
  match UnspentTxOut.find i.tx_out_id i.tx_out_index unspent_tx_outs with
  | none => none
  | some referenced =>
    if pub private_key ≠ referenced.address then none
    else some (sgn private_key tx.id)

/-- Wallet.create_transaction: filter the wallet's UTXOs, greedily select
until the total strictly exceeds `amount`, build the outputs and unsigned
inputs, compute the id, and sign every input over the id. -/
def Wallet.create_transaction (sha : Bytes → Bytes) (sgn : Bytes → Bytes → Bytes)
    (pub : Bytes → Bytes) (private_key receiver_address : Bytes) (amount : ℚ)
    (unspent_tx_outs : List UnspentTxOut) : Option Transaction :=
  let my_address := pub private_key
  match Wallet.find_tx_outs_for_amount amount
      (Wallet.my_unspent_tx_outs pub private_key unspent_tx_outs) with
  | none => none
  | some (included, left_over) =>
    let unsigned_tx_ins := included.map fun u => TxIn.mk u.tx_out_id u.tx_out_index none
    let tx_outs := Wallet.create_tx_outs my_address receiver_address amount left_over
    match Transaction.get_id sha ⟨unsigned_tx_ins, tx_outs, []⟩ with
    | none => none
    | some tid =>
      match mapOpt (fun i =>
          (Transaction.sign_input sgn pub ⟨unsigned_tx_ins, tx_outs, tid⟩ i private_key
            unspent_tx_outs).map fun s => { i with signature := some s })
          unsigned_tx_ins with
      | none => none
      | some signed_tx_ins => some ⟨signed_tx_ins, tx_outs, tid⟩

/-- Wallet.get_balance. -/
def Wallet.get_balance (address : Bytes) (unspent_tx_outs : List UnspentTxOut) : ℚ :=
  qsum ((unspent_tx_outs.filter fun u => u.address == address).map (·.amount))

/-! ## The spec-side chain-derived UTXO set (claim C1)

The specification requires `Blockchain.replace` to re-derive the UTXO set
of the adopted chain; the source has no such computation, so the claimed
result is stated here following the spec's words: run `process_transactions`
over the blocks in order, starting from the empty UTXO set. -/

/-- Specification-side definition (for claim C1): the UTXO set derived from a
chain by running `process_transactions` over its blocks in order starting
from the empty set. -/
def spec_derived_utxos (sha : Bytes → Bytes) (ver : Bytes → Bytes → Bytes → Bool)
    (blocks : List Block) : Option (Option (List UnspentTxOut)) :=
  blocks.foldl
    (fun acc b =>
      match acc with
      | some (some us) => Transaction.process_transactions sha ver b.data us b.index
      | x => x)
    (some (some []))

/-! ## Concrete instantiations used by witnesses and counterexamples -/

/-- A well-formed 48-byte address. -/
def addrW : Bytes := List.replicate 48 0

/-- Concrete stand-in for SHA-256 in closed statements (the claims do not
depend on any property of the hash function). -/
def csha : Bytes → Bytes := fun _ => []

/-- Concrete always-accepting signature verifier: stands in for ECDSA
verification at inputs where a valid real signature exists. -/
def cver_true : Bytes → Bytes → Bytes → Bool := fun _ _ _ => true

/-- Concrete always-rejecting signature verifier. -/
def cver_false : Bytes → Bytes → Bytes → Bool := fun _ _ _ => false

/-- Concrete signing function. -/
def csign : Bytes → Bytes → Bytes := fun _ _ => [1]

/-- Concrete public-key derivation. -/
def cpub : Bytes → Bytes := fun _ => addrW

/-- The genesis block under `csha`. -/
def g0 : Block := Block.genesis_block csha

/-- A coinbase transaction for block height 1 (ids under `csha` are `[]`). -/
def cb1 : Transaction := ⟨[⟨[], 1, some []⟩], [⟨addrW, 50⟩], []⟩

/-- A block of height 1 on top of the genesis block, carrying `cb1`; its
stored hash is its `csha`-computed hash. -/
def b1 : Block := ⟨1, some g0.hash, 1528359030, [cb1], 0, 0, []⟩

/-- A normal transaction (correct id under `csha`, nonempty signature) whose
single input's `(tx_out_id, tx_out_index)` pair equals the coinbase input
key of height 1. -/
def n6 : Transaction := ⟨[⟨[], 1, some [1]⟩], [⟨addrW, 50⟩], []⟩

/-- A UTXO set containing the output spent by `n6`. -/
def u6 : List UnspentTxOut := [⟨[], 1, addrW, 50⟩]

/-- A wall-clock instant at the genesis timestamp. -/
def now0 : ℚ := 1528359030

/-- The freshly initialised blockchain: genesis only, empty UTXO set. -/
def bc0 : Blockchain := ⟨[g0], []⟩

/-- The state after replacing `bc0`'s chain with `[g0, b1]`. -/
def bc1 : Blockchain := ⟨[g0, b1], []⟩

/-! ## Bridge lemmas: the `q*` arithmetic is the standard `ℚ` arithmetic -/

theorem qadd_eq (a b : ℚ) : qadd a b = a + b := (Rat.add_def' a b).symm

theorem qsub_eq (a b : ℚ) : qsub a b = a - b := (Rat.sub_def' a b).symm

theorem qmul_eq (a b : ℚ) : qmul a b = a * b := by
  rw [qmul, Rat.mul_def, Rat.normalize_eq_mkRat]

theorem qinv_eq (a : ℚ) : qinv a = a⁻¹ := by
  show Rat.divInt (a.den : Int) a.num = a.inv
  rw [Rat.inv_def]

theorem qdiv_eq (a b : ℚ) : qdiv a b = a / b := by
  rw [qdiv, qmul_eq, qinv_eq, div_eq_mul_inv]

theorem qsum_foldl (l : List ℚ) : ∀ x : ℚ, l.foldl qadd x = x + l.sum := by
  induction l with
  | nil => intro x; simp
  | cons a l ih => intro x; simp [ih, qadd_eq, add_assoc]

theorem qsum_eq (l : List ℚ) : qsum l = l.sum := by simp [qsum, qsum_foldl]

/-! ## Lemmas about `mapOpt` -/

theorem mapOpt_eq_some_iff {α β : Type} (f : α → Option β) :
    ∀ (l : List α) (ys : List β),
      mapOpt f l = some ys ↔ List.Forall₂ (fun a b => f a = some b) l ys := by
  intro l
  induction l with
  | nil =>
    intro ys
    constructor
    · intro h; cases h; exact List.Forall₂.nil
    · intro h; cases h; rfl
  | cons a l ih =>
    intro ys
    constructor
    · intro h
      simp only [mapOpt] at h
      cases hfa : f a with
      | none => rw [hfa] at h; cases h
      | some b =>
        rw [hfa] at h
        cases hml : mapOpt f l with
        | none => rw [hml] at h; cases h
        | some bs =>
          rw [hml] at h
          cases h
          exact List.Forall₂.cons hfa ((ih bs).mp hml)
    · intro h
      cases h with
      | cons hfa hrest =>
        simp only [mapOpt, hfa, (ih _).mpr hrest]

theorem mapOpt_isSome_iff {α β : Type} (f : α → Option β) (l : List α) :
    (mapOpt f l).isSome ↔ ∀ a ∈ l, (f a).isSome := by
  induction l with
  | nil => simp [mapOpt]
  | cons a l ih =>
    constructor
    · intro h a' ha'
      simp only [mapOpt] at h
      cases hfa : f a with
      | none => rw [hfa] at h; simp at h
      | some b =>
        rw [hfa] at h
        cases hml : mapOpt f l with
        | none => rw [hml] at h; simp at h
        | some bs =>
          rcases List.mem_cons.mp ha' with rfl | ha2
          · simp [hfa]
          · exact (ih.mp (by simp [hml])) a' ha2
    · intro h
      simp only [mapOpt]
      cases hfa : f a with
      | none =>
        have := h a (List.mem_cons_self ..)
        rw [hfa] at this
        simp at this
      | some b =>
        rcases Option.isSome_iff_exists.mp
          (ih.mpr fun x hx => h x (List.mem_cons_of_mem a hx)) with ⟨bs, hbs⟩
        rw [hbs]
        simp

theorem forall₂_exists_left {α β : Type} {R : α → β → Prop} :
    ∀ {l : List α} {ys : List β}, List.Forall₂ R l ys → ∀ b ∈ ys, ∃ a ∈ l, R a b := by
  intro l ys h
  induction h with
  | nil => intro b hb; cases hb
  | cons hfa _ ih =>
    intro b hb
    rcases List.mem_cons.mp hb with rfl | hb2
    · exact ⟨_, List.mem_cons_self .., hfa⟩
    · rcases ih b hb2 with ⟨a, ha, hfa2⟩
      exact ⟨a, List.mem_cons_of_mem _ ha, hfa2⟩

theorem mapOpt_mem_of_some {α β : Type} {f : α → Option β} {l : List α} {ys : List β}
    (h : mapOpt f l = some ys) : ∀ b ∈ ys, ∃ a ∈ l, f a = some b :=
  forall₂_exists_left ((mapOpt_eq_some_iff f l ys).mp h)

theorem mapOpt_ne_none {α β : Type} {f : α → Option β} {l : List α}
    (h : ∀ a ∈ l, (f a).isSome) : ∃ ys, mapOpt f l = some ys := by
  rcases Option.isSome_iff_exists.mp ((mapOpt_isSome_iff f l).mpr h) with ⟨ys, hys⟩
  exact ⟨ys, hys⟩

/-- Characterization used for "all list elements validate": the batch of
boolean results exists and is all-true iff every element yields
`some true`. -/
theorem mapOpt_all_true_iff {α : Type} (f : α → Option Bool) (l : List α) :
    (∃ rs, mapOpt f l = some rs ∧ rs.all (fun b => b) = true) ↔
      ∀ a ∈ l, f a = some true := by
  constructor
  · rintro ⟨rs, hrs, hall⟩ a ha
    have h2 := (mapOpt_eq_some_iff f l rs).mp hrs
    clear hrs
    induction h2 with
    | nil => cases ha
    | cons hfa _ ih =>
      simp only [List.all_cons, Bool.and_eq_true] at hall
      rcases List.mem_cons.mp ha with rfl | ha2
      · rw [hfa, hall.1]
      · exact ih hall.2 ha2
  · intro h
    induction l with
    | nil => exact ⟨[], rfl, rfl⟩
    | cons a l ih =>
      rcases ih (fun x hx => h x (List.mem_cons_of_mem a hx)) with ⟨rs, hrs, hall⟩
      refine ⟨true :: rs, ?_, ?_⟩
      · simp only [mapOpt, h a (List.mem_cons_self ..), hrs]
      · simpa using hall

/-! ## Characterization lemmas for the transaction validators -/

theorem txIn_validate_some_true (ver : Bytes → Bytes → Bytes → Bool) (i : TxIn)
    (tx : Transaction) (us : List UnspentTxOut) :
    TxIn.validate ver i tx us = some true ↔
      ∃ u, UnspentTxOut.find i.tx_out_id i.tx_out_index us = some u ∧
        ∃ s, i.signature = some s ∧ s ≠ [] ∧ ver s u.address tx.id = true := by
  unfold TxIn.validate
  cases hf : UnspentTxOut.find i.tx_out_id i.tx_out_index us with
  | none => simp
  | some u =>
    cases hs : i.signature with
    | none => simp
    | some s =>
      by_cases hsE : s = [] <;> simp [hsE]

theorem validate_some_true_iff (sha : Bytes → Bytes) (ver : Bytes → Bytes → Bytes → Bool)
    (tx : Transaction) (us : List UnspentTxOut) :
    Transaction.validate sha ver tx us = some true ↔
      (tx.get_id sha = some tx.id
        ∧ (∀ i ∈ tx.tx_ins, TxIn.validate ver i tx us = some true)
        ∧ ∃ amts, mapOpt (fun i => TxIn.get_amount i us) tx.tx_ins = some amts
            ∧ qsum amts = qsum (tx.tx_outs.map (·.amount))) := by
  constructor
  · intro h
    unfold Transaction.validate at h
    split at h
    · exact absurd h (by simp)
    · rename_i gid hg
      split at h
      · exact absurd h (by simp)
      · rename_i hid
        have hid2 : tx.id = gid := not_not.mp hid
        split at h
        · exact absurd h (by simp)
        · rename_i rs hrs
          split at h
          · exact absurd h (by simp)
          · rename_i hall
            split at h
            · exact absurd h (by simp)
            · rename_i amts hamts
              split at h
              · exact absurd h (by simp)
              · rename_i hsum
                exact ⟨by rw [hg, hid2],
                  (mapOpt_all_true_iff _ _).mp ⟨rs, hrs, not_not.mp hall⟩,
                  amts, hamts, not_not.mp hsum⟩
  · rintro ⟨hgid, hins, amts, hamts, hsum⟩
    rcases (mapOpt_all_true_iff _ _).mpr hins with ⟨rs, hrs, hall⟩
    simp [Transaction.validate, hgid, hrs, hall, hamts, hsum]

/-! ## Chain validity characterization -/

theorem valid_chain_rest_some_true_iff (sha : Bytes → Bytes) (now : ℚ) :
    ∀ (prev : Block) (l : List Block),
      Blockchain.valid_chain_rest sha now prev l = some true ↔
        List.Chain' (fun a b => Block.is_valid_next sha a b now = some true) (prev :: l) := by
  intro prev l
  induction l generalizing prev with
  | nil => simp [Blockchain.valid_chain_rest]
  | cons b rest ih =>
    simp only [Blockchain.valid_chain_rest]
    cases hv : Block.is_valid_next sha prev b now with
    | none => simp [List.chain'_cons, hv]
    | some v =>
      cases v
      · simp [List.chain'_cons, hv]
      · simp [List.chain'_cons, hv, ih]

theorem is_valid_chain_some_true_iff (sha : Bytes → Bytes) (now : ℚ)
    (blocks : List Block) :
    Blockchain.is_valid_chain sha now blocks = some true ↔
      ((∃ g rest, blocks = g :: rest ∧ Block.is_genesis sha g = true)
        ∧ List.Chain' (fun a b => Block.is_valid_next sha a b now = some true) blocks) := by
  cases blocks with
  | nil => simp [Blockchain.is_valid_chain]
  | cons b0 rest =>
    simp only [Blockchain.is_valid_chain]
    by_cases hgen : Block.is_genesis sha b0 = true
    · simp [hgen, valid_chain_rest_some_true_iff]
    · simp [hgen]

/-- C2: `Blockchain.replace(new_blocks)` succeeds — returns `True` and
installs `new_blocks` as the block sequence — if and only if `new_blocks` is
a valid chain (its first block equals the canonical genesis block under
Python `==`, and every adjacent pair satisfies `is_valid_next`) and
`new_blocks` is strictly longer than the current local chain. -/
theorem replace_succeeds_iff (sha : Bytes → Bytes) (now : ℚ) (bc : Blockchain)
    (new_blocks : List Block) :
    Blockchain.replace sha bc new_blocks now
        = some (true, { bc with blocks := new_blocks }) ↔
      ((∃ g rest, new_blocks = g :: rest ∧ Block.is_genesis sha g = true)
        ∧ List.Chain' (fun a b => Block.is_valid_next sha a b now = some true) new_blocks
        ∧ bc.blocks.length < new_blocks.length) := by
  unfold Blockchain.replace
  cases hv : Blockchain.is_valid_chain sha now new_blocks with
  | none =>
    constructor
    · intro h; cases h
    · rintro ⟨h1, h2, h3⟩
      have := (is_valid_chain_some_true_iff sha now new_blocks).mpr ⟨h1, h2⟩
      rw [hv] at this
      cases this
  | some v =>
    cases v
    · constructor
      · intro h
        simp at h
      · rintro ⟨h1, h2, h3⟩
        have := (is_valid_chain_some_true_iff sha now new_blocks).mpr ⟨h1, h2⟩
        rw [hv] at this
        cases this
    · have hvc := (is_valid_chain_some_true_iff sha now new_blocks).mp hv
      by_cases hlen : bc.blocks.length < new_blocks.length
      · rcases hvc with ⟨⟨g, rest, hgr, hgen⟩, hchain⟩
        subst hgr
        simp [hlen, hchain, hgen]
      · simp [hlen]

/-- C1 (code bug): `Blockchain.replace` never touches `unspent_tx_outs`
(first conjunct, over every input), so after a successful replace the stored
UTXO set is the stale one rather than the set derived from the new chain:
on the concrete valid 2-block chain `[g0, b1]`, whose coinbase creates one
UTXO of amount 50, `replace` succeeds, keeps `unspent_tx_outs = []`, while
`process_transactions` run over the new chain from the empty set (the
spec-side `spec_derived_utxos`) yields that UTXO. -/
theorem replace_keeps_stale_utxos :
    (∀ (sha : Bytes → Bytes) (bc : Blockchain) (new_blocks : List Block) (now : ℚ),
        (Blockchain.replace sha bc new_blocks now).elim True
          (fun r => r.2.unspent_tx_outs = bc.unspent_tx_outs))
      ∧ Blockchain.replace csha bc0 [g0, b1] now0 = some (true, bc1)
      ∧ bc1.unspent_tx_outs = bc0.unspent_tx_outs
      ∧ spec_derived_utxos csha cver_false [g0, b1] = some (some [⟨[], 0, addrW, 50⟩])
      ∧ bc1.unspent_tx_outs ≠ [⟨[], 0, addrW, 50⟩] := by
  refine ⟨?_, by decide, by decide, by decide, by decide⟩
  intro sha bc new_blocks now
  unfold Blockchain.replace
  cases Blockchain.is_valid_chain sha now new_blocks with
  | none => exact trivial
  | some v =>
    by_cases h : v ∧ bc.blocks.length < new_blocks.length <;> simp [h]

/-- C8: `get_difficulty` returns `get_adjusted_difficulty()` when the tip's
index is a nonzero multiple of 10 and the tip's difficulty otherwise;
`get_adjusted_difficulty`, with `prev = blocks[max(0, len − 10)]` and
`taken = tip.timestamp − prev.timestamp`, returns `prev.difficulty + 1` when
`taken < 50`, `max(prev.difficulty − 1, 0)` when `taken > 200`, and
`prev.difficulty` otherwise. -/
theorem get_difficulty_spec (bc : Blockchain) (tip prev : Block)
    (htip : bc.blocks.getLast? = some tip)
    (hprev : bc.blocks.get? (bc.blocks.length - 10) = some prev) :
    Blockchain.get_adjusted_difficulty bc =
        some (if tip.timestamp - prev.timestamp < 50 then prev.difficulty + 1
          else if tip.timestamp - prev.timestamp > 200 then max (prev.difficulty - 1) 0
          else prev.difficulty)
      ∧ Blockchain.get_difficulty bc =
          some (if 10 ∣ tip.index ∧ tip.index ≠ 0 then
              (if tip.timestamp - prev.timestamp < 50 then prev.difficulty + 1
                else if tip.timestamp - prev.timestamp > 200 then max (prev.difficulty - 1) 0
                else prev.difficulty)
            else tip.difficulty) := by
  have hadj : Blockchain.get_adjusted_difficulty bc =
      some (if tip.timestamp - prev.timestamp < 50 then prev.difficulty + 1
        else if tip.timestamp - prev.timestamp > 200 then max (prev.difficulty - 1) 0
        else prev.difficulty) := by
    simp only [Blockchain.get_adjusted_difficulty, Blockchain.get_latest, hprev, htip]
    have h50 : qdiv (qmul 10 10) 2 = (50 : ℚ) := by
      rw [qdiv_eq, qmul_eq]; norm_num
    have h200 : qmul (qmul 10 10) 2 = (200 : ℚ) := by
      rw [qmul_eq, qmul_eq]; norm_num
    rw [qsub_eq, h50, h200]
    split_ifs <;> rfl
  refine ⟨hadj, ?_⟩
  simp only [Blockchain.get_difficulty, Blockchain.get_latest, htip]
  by_cases hc : tip.index % 10 = 0 ∧ tip.index ≠ 0
  · rw [if_pos hc, if_pos ⟨Nat.dvd_iff_mod_eq_zero.mpr hc.1, hc.2⟩, hadj]
  · rw [if_neg hc, if_neg fun h => hc ⟨Nat.dvd_iff_mod_eq_zero.mp h.1, h.2⟩]

/-- Witness for C8, at the freshly initialised chain (tip = prev = genesis). -/
theorem get_difficulty_spec_witness :
    bc0.blocks.getLast? = some g0
      ∧ bc0.blocks.get? (bc0.blocks.length - 10) = some g0
      ∧ (Blockchain.get_adjusted_difficulty bc0 =
          some (if g0.timestamp - g0.timestamp < 50 then g0.difficulty + 1
            else if g0.timestamp - g0.timestamp > 200 then max (g0.difficulty - 1) 0
            else g0.difficulty)
        ∧ Blockchain.get_difficulty bc0 =
            some (if 10 ∣ g0.index ∧ g0.index ≠ 0 then
                (if g0.timestamp - g0.timestamp < 50 then g0.difficulty + 1
                  else if g0.timestamp - g0.timestamp > 200 then max (g0.difficulty - 1) 0
                  else g0.difficulty)
              else g0.difficulty)) :=
  ⟨rfl, rfl, get_difficulty_spec bc0 g0 g0 rfl rfl⟩

/-! ## Exception-freedom lemmas (used for claim C3) -/

theorem txIn_validate_ne_none (ver : Bytes → Bytes → Bytes → Bool) (i : TxIn)
    (tx : Transaction) (us : List UnspentTxOut) (hsig : i.signature.isSome) :
    TxIn.validate ver i tx us ≠ none := by
  unfold TxIn.validate
  cases hf : UnspentTxOut.find i.tx_out_id i.tx_out_index us with
  | none => simp
  | some u =>
    cases hs : i.signature with
    | none => rw [hs] at hsig; simp at hsig
    | some s => simp

theorem txIn_validate_true_finds {ver : Bytes → Bytes → Bytes → Bool} {i : TxIn}
    {tx : Transaction} {us : List UnspentTxOut}
    (h : TxIn.validate ver i tx us = some true) :
    (UnspentTxOut.find i.tx_out_id i.tx_out_index us).isSome := by
  rcases (txIn_validate_some_true ver i tx us).mp h with ⟨u, hu, -⟩
  simp [hu]

theorem validate_ne_none (sha : Bytes → Bytes) (ver : Bytes → Bytes → Bytes → Bool)
    (tx : Transaction) (us : List UnspentTxOut)
    (hstruct : tx.has_valid_structure = true)
    (hid : (Transaction.get_id sha tx).isSome) :
    Transaction.validate sha ver tx us ≠ none := by
  have hsigs : ∀ i ∈ tx.tx_ins, (TxIn.validate ver i tx us).isSome := by
    intro i hi
    have h2 := hstruct
    unfold Transaction.has_valid_structure at h2
    rcases Bool.and_eq_true .. ▸ h2 with ⟨hins, -⟩
    have h3 := List.all_eq_true.mp hins i hi
    exact Option.ne_none_iff_isSome.mp
      (txIn_validate_ne_none ver i tx us h3)
  intro hnone
  unfold Transaction.validate at hnone
  split at hnone
  · rename_i hg; rw [hg] at hid; simp at hid
  · rename_i gid hg
    split at hnone
    · cases hnone
    · split at hnone
      · rename_i hmap
        rcases mapOpt_ne_none hsigs with ⟨rs, hrs⟩
        rw [hmap] at hrs
        cases hrs
      · rename_i rs hrs
        split at hnone
        · cases hnone
        · rename_i hall
          split at hnone
          · rename_i hamts
            have hins2 : ∀ i ∈ tx.tx_ins, TxIn.validate ver i tx us = some true :=
              (mapOpt_all_true_iff _ _).mp ⟨rs, hrs, not_not.mp hall⟩
            have hfinds : ∀ i ∈ tx.tx_ins, (TxIn.get_amount i us).isSome := by
              intro i hi
              have := txIn_validate_true_finds (hins2 i hi)
              unfold TxIn.get_amount
              cases hfind : UnspentTxOut.find i.tx_out_id i.tx_out_index us with
              | none => rw [hfind] at this; simp at this
              | some u => simp
            rcases mapOpt_ne_none hfinds with ⟨amts, h4⟩
            rw [hamts] at h4
            cases h4
          · split at hnone <;> cases hnone

theorem validate_coinbase_ne_none (sha : Bytes → Bytes) (tx : Transaction) (bi : Nat)
    (hid : (Transaction.get_id sha tx).isSome) :
    Transaction.validate_coinbase sha tx bi ≠ none := by
  intro hnone
  unfold Transaction.validate_coinbase at hnone
  split at hnone
  · rename_i hg; rw [hg] at hid; simp at hid
  · split at hnone
    · cases hnone
    · split at hnone
      · split at hnone
        · cases hnone
        · split at hnone
          · split at hnone <;> cases hnone
          · cases hnone
      · cases hnone

theorem vbt_ne_none (sha : Bytes → Bytes) (ver : Bytes → Bytes → Bytes → Bool)
    (txs : List Transaction) (us : List UnspentTxOut) (bi : Nat)
    (hstr : txs.all Transaction.has_valid_structure = true)
    (hids : ∀ tx ∈ txs, (Transaction.get_id sha tx).isSome) :
    Transaction.validate_block_transactions sha ver txs us bi ≠ none := by
  intro hnone
  unfold Transaction.validate_block_transactions at hnone
  split at hnone
  · cases hnone
  · rename_i cb rest
    split at hnone
    · rename_i hcb
      exact validate_coinbase_ne_none sha cb bi (hids cb (List.mem_cons_self ..)) hcb
    · split at hnone
      · cases hnone
      · split at hnone
        · cases hnone
        · split at hnone
          · rename_i hmap
            have hsome : ∀ tx ∈ rest, (Transaction.validate sha ver tx us).isSome := by
              intro tx htx
              have h1 := List.all_eq_true.mp hstr tx (List.mem_cons_of_mem _ htx)
              have h2 := hids tx (List.mem_cons_of_mem _ htx)
              exact Option.ne_none_iff_isSome.mp (validate_ne_none sha ver tx us h1 h2)
            rcases mapOpt_ne_none hsome with ⟨rs, hrs⟩
            rw [hmap] at hrs
            cases hrs
          · cases hnone

theorem process_ne_none (sha : Bytes → Bytes) (ver : Bytes → Bytes → Bytes → Bool)
    (txs : List Transaction) (us : List UnspentTxOut) (bi : Nat)
    (hids : ∀ tx ∈ txs, (Transaction.get_id sha tx).isSome) :
    Transaction.process_transactions sha ver txs us bi ≠ none := by
  intro hnone
  unfold Transaction.process_transactions at hnone
  split at hnone
  · cases hnone
  · rename_i hstr
    split at hnone
    · rename_i hv
      exact vbt_ne_none sha ver txs us bi (not_not.mp hstr) hids hv
    · cases hnone
    · cases hnone

theorem calc_hash_ids_isSome {sha : Bytes → Bytes} {b : Block} {h : Bytes}
    (hwf : Block.calculate_hash_for_block sha b = some h) :
    ∀ tx ∈ b.data, (Transaction.get_id sha tx).isSome := by
  intro tx htx
  by_contra hno
  have hids : mapOpt (Transaction.get_id sha) b.data = none := by
    cases hm : mapOpt (Transaction.get_id sha) b.data with
    | none => rfl
    | some ids =>
      exact absurd ((mapOpt_isSome_iff _ _).mp (by simp [hm]) tx htx) hno
  unfold Block.calculate_hash_for_block Block.calculate_hash at hwf
  rw [hids] at hwf
  split at hwf <;> simp_all

theorem has_valid_hash_ne_none (sha : Bytes → Bytes) (b : Block)
    (hcalc : (Block.calculate_hash_for_block sha b).isSome) :
    Block.has_valid_hash sha b ≠ none := by
  intro h
  unfold Block.has_valid_hash at h
  split at h
  · rename_i hc; rw [hc] at hcalc; simp at hcalc
  · split at h
    · cases h
    · split at h <;> cases h

theorem is_valid_next_ne_none (sha : Bytes → Bytes) (b next : Block) (now : ℚ)
    (hcalc : (Block.calculate_hash_for_block sha next).isSome) :
    Block.is_valid_next sha b next now ≠ none := by
  unfold Block.is_valid_next
  split_ifs <;> try simp
  cases hh : Block.has_valid_hash sha next with
  | none => exact absurd hh (has_valid_hash_ne_none sha next hcalc)
  | some hv => cases hv <;> simp

/-- C3: for a blockchain with tip `tip` and any block whose stored hash is
its computed hash (an invariant of every Python `Block` object, established
by `__init__`), `add_block` returns `True` exactly when `tip.is_valid_next`
holds and `process_transactions` yields a new UTXO set; on `True` the block
is appended and the UTXO set replaced by the produced one; otherwise it
returns `False` with the state unchanged, and no exception is raised
(`add_block` always returns a value). -/
theorem add_block_spec (sha : Bytes → Bytes) (ver : Bytes → Bytes → Bytes → Bool)
    (now : ℚ) (bc : Blockchain) (block : Block) (tip : Block)
    (htip : bc.get_latest = some tip)
    (hwf : Block.calculate_hash_for_block sha block = some block.hash) :
    (∀ bc', Blockchain.add_block sha ver bc block now = some (true, bc') ↔
        (Block.is_valid_next sha tip block now = some true
          ∧ ∃ us', Transaction.process_transactions sha ver block.data
              bc.unspent_tx_outs block.index = some (some us')
            ∧ bc' = ⟨bc.blocks ++ [block], us'⟩))
      ∧ (∃ r, Blockchain.add_block sha ver bc block now = some r
          ∧ (r.1 = false → r.2 = bc)) := by
  obtain ⟨v, hnext⟩ : ∃ v, Block.is_valid_next sha tip block now = some v :=
    Option.ne_none_iff_exists'.mp (is_valid_next_ne_none sha tip block now (by simp [hwf]))
  obtain ⟨res, hproc⟩ : ∃ res, Transaction.process_transactions sha ver block.data
      bc.unspent_tx_outs block.index = some res :=
    Option.ne_none_iff_exists'.mp
      (process_ne_none sha ver block.data bc.unspent_tx_outs block.index
        (calc_hash_ids_isSome hwf))
  cases v
  · have hadd : Blockchain.add_block sha ver bc block now = some (false, bc) := by
      simp [Blockchain.add_block, htip, hnext]
    refine ⟨?_, (false, bc), hadd, fun _ => rfl⟩
    intro bc'
    rw [hadd]
    constructor
    · intro h; simp at h
    · rintro ⟨hcontra, -⟩
      rw [hnext] at hcontra
      simp at hcontra
  · cases res with
    | none =>
      have hadd : Blockchain.add_block sha ver bc block now = some (false, bc) := by
        simp [Blockchain.add_block, htip, hnext, hproc]
      refine ⟨?_, (false, bc), hadd, fun _ => rfl⟩
      intro bc'
      rw [hadd]
      constructor
      · intro h; simp at h
      · rintro ⟨-, us'', hus'', -⟩
        rw [hproc] at hus''
        simp at hus''
    | some us' =>
      have hadd : Blockchain.add_block sha ver bc block now
          = some (true, ⟨bc.blocks ++ [block], us'⟩) := by
        simp [Blockchain.add_block, htip, hnext, hproc]
      refine ⟨?_, (true, ⟨bc.blocks ++ [block], us'⟩), hadd, by simp⟩
      intro bc'
      rw [hadd]
      constructor
      · intro h
        simp only [Option.some.injEq, Prod.mk.injEq, true_and] at h
        exact ⟨hnext, us', hproc, h.symm⟩
      · rintro ⟨-, us'', hus'', rfl⟩
        rw [hproc] at hus''
        simp only [Option.some.injEq] at hus''
        subst hus''
        rfl

/-- Witness for C3: adding the concrete block `b1` on the fresh chain. -/
theorem add_block_spec_witness :
    bc0.get_latest = some g0
      ∧ Block.calculate_hash_for_block csha b1 = some b1.hash
      ∧ ((∀ bc', Blockchain.add_block csha cver_false bc0 b1 now0 = some (true, bc') ↔
          (Block.is_valid_next csha g0 b1 now0 = some true
            ∧ ∃ us', Transaction.process_transactions csha cver_false b1.data
                bc0.unspent_tx_outs b1.index = some (some us')
              ∧ bc' = ⟨bc0.blocks ++ [b1], us'⟩))
        ∧ (∃ r, Blockchain.add_block csha cver_false bc0 b1 now0 = some r
            ∧ (r.1 = false → r.2 = bc0))) :=
  ⟨rfl, by decide, add_block_spec csha cver_false now0 bc0 b1 g0 rfl (by decide)⟩

/-! ## Claims C5, C6, C4 -/

theorem mapOpt_eq_none_exists {α β : Type} {f : α → Option β} {l : List α}
    (h : mapOpt f l = none) : ∃ a ∈ l, f a = none := by
  by_contra hno
  push_neg at hno
  rcases mapOpt_ne_none (fun a ha => Option.ne_none_iff_isSome.mp (hno a ha)) with ⟨ys, hys⟩
  rw [h] at hys
  cases hys

/-- C5 counterexample: a transaction with one `None`-signature input whose
referenced UTXO exists in `U`, and a correct id.  `Transaction.validate`
returns neither `True` nor `False` on it — the Python code raises
`TypeError` in the logging call of `TxIn.validate` — refuting the claim's
"otherwise it returns False". -/
theorem validate_cex_neither_true_nor_false :
    Transaction.validate csha cver_true ⟨[⟨[], 0, none⟩], [], []⟩ [⟨[], 0, addrW, 0⟩]
        ≠ some true
      ∧ Transaction.validate csha cver_true ⟨[⟨[], 0, none⟩], [], []⟩ [⟨[], 0, addrW, 0⟩]
        ≠ some false :=
  ⟨by decide, by decide⟩

/-- C5 (amended): `Transaction.validate(U)` returns `True` iff the stored id
equals the recomputed id, every input's referenced UTXO (the first match in
`U` on `(tx_out_id, tx_out_index)`) exists and the input carries a nonempty
signature that verifies against that UTXO's address over the message
`tx.id`, and the sum of the referenced UTXOs' amounts equals the sum of the
output amounts.  Otherwise it returns `False` — except that it fails
exceptionally (raises) when an output amount's numerator is negative or
when an input whose UTXO exists carries signature `None`. -/
theorem validate_accepts_iff (sha : Bytes → Bytes) (ver : Bytes → Bytes → Bytes → Bool)
    (tx : Transaction) (us : List UnspentTxOut) :
    Transaction.validate sha ver tx us = some true ↔
      (Transaction.get_id sha tx = some tx.id
        ∧ (∀ i ∈ tx.tx_ins, ∃ u, UnspentTxOut.find i.tx_out_id i.tx_out_index us = some u
            ∧ ∃ s, i.signature = some s ∧ s ≠ [] ∧ ver s u.address tx.id = true)
        ∧ ∃ amts, mapOpt (fun i => TxIn.get_amount i us) tx.tx_ins = some amts
            ∧ amts.sum = (tx.tx_outs.map (·.amount)).sum) := by
  rw [validate_some_true_iff]
  constructor
  · rintro ⟨h1, h2, amts, h3, h4⟩
    rw [qsum_eq, qsum_eq] at h4
    exact ⟨h1, fun i hi => (txIn_validate_some_true ver i tx us).mp (h2 i hi), amts, h3, h4⟩
  · rintro ⟨h1, h2, amts, h3, h4⟩
    rw [← qsum_eq, ← qsum_eq] at h4
    exact ⟨h1, fun i hi => (txIn_validate_some_true ver i tx us).mpr (h2 i hi), amts, h3, h4⟩

/-- Characterization of `validate_block_transactions` acceptance (helper,
also the content of claim C6 as amended). -/
theorem vbt_some_true_iff (sha : Bytes → Bytes) (ver : Bytes → Bytes → Bytes → Bool)
    (txs : List Transaction) (us : List UnspentTxOut) (bi : Nat) :
    Transaction.validate_block_transactions sha ver txs us bi = some true ↔
      (txs = [] ∨ ∃ cb rest, txs = cb :: rest
        ∧ Transaction.validate_coinbase sha cb bi = some true
        ∧ TxIn.has_duplicates ((txs.map Transaction.tx_ins).flatten) = false
        ∧ ∀ tx ∈ rest, Transaction.validate sha ver tx us = some true) := by
  cases txs with
  | nil => simp [Transaction.validate_block_transactions]
  | cons cb rest =>
    simp only [Transaction.validate_block_transactions]
    constructor
    · intro h
      split at h
      · cases h
      · rename_i cv hcv
        split at h
        · cases h
        · rename_i hcvt
          split at h
          · cases h
          · rename_i hdup
            split at h
            · cases h
            · rename_i rs hrs
              right
              refine ⟨cb, rest, rfl, ?_, ?_, ?_⟩
              · rw [hcv, not_not.mp hcvt]
              · simpa using hdup
              · exact (mapOpt_all_true_iff _ _).mp ⟨rs, hrs, Option.some.inj h⟩
    · rintro (h | ⟨cb', rest', heq, hcb, hdup, hall⟩)
      · cases h
      · injection heq with e1 e2
        subst e1
        subst e2
        rcases (mapOpt_all_true_iff _ _).mpr hall with ⟨rs, hrs, hallrs⟩
        simp only [List.map_cons, List.flatten_cons] at hdup
        simp [hcb, hdup, hrs, hallrs]

/-- C6 counterexample: the batch `[cb1, n6]` where the normal transaction
`n6` spends a UTXO whose `(tx_out_id, tx_out_index)` key collides with the
coinbase input's key.  All conditions of the claim hold — the coinbase is
valid at height 1, the inputs of `txs[1:]` are duplicate-free, and `n6`
validates against `U` — yet the code rejects the batch, because its
duplicate check runs over the inputs of ALL transactions including the
coinbase. -/
theorem vbt_cex_coinbase_dup :
    Transaction.validate_block_transactions csha cver_true [cb1, n6] u6 1 = some false
      ∧ Transaction.validate_coinbase csha cb1 1 = some true
      ∧ (((((List.drop 1 [cb1, n6]).map Transaction.tx_ins).flatten).map
          fun i => (i.tx_out_id, i.tx_out_index)).Nodup)
      ∧ Transaction.validate csha cver_true n6 u6 = some true :=
  ⟨by decide, by decide, by decide, by decide⟩

/-- C6 (amended): `validate_block_transactions(txs, U, block_index)` accepts
the empty batch, and accepts a non-empty batch iff `txs[0]` is a valid
coinbase at `block_index` (correct id, exactly one input whose
`tx_out_index` equals `block_index`, exactly one output of amount 50), the
duplicate check `TxIn.has_duplicates` passes over the inputs of ALL
transactions of the batch (the coinbase included, keyed by
`tx_out_id ‖ int_to_bytes(tx_out_index)`), and every transaction of
`txs[1:]` validates against `U`. -/
theorem vbt_accepts_iff (sha : Bytes → Bytes) (ver : Bytes → Bytes → Bytes → Bool)
    (txs : List Transaction) (us : List UnspentTxOut) (bi : Nat) :
    Transaction.validate_block_transactions sha ver txs us bi = some true ↔
      (txs = [] ∨ ∃ cb rest, txs = cb :: rest
        ∧ Transaction.validate_coinbase sha cb bi = some true
        ∧ TxIn.has_duplicates ((txs.map Transaction.tx_ins).flatten) = false
        ∧ ∀ tx ∈ rest, Transaction.validate sha ver tx us = some true) :=
  vbt_some_true_iff sha ver txs us bi

theorem tx_out_id_bytes_isSome_iff (o : TxOut) :
    (tx_out_id_bytes o).isSome ↔ 0 ≤ o.amount := by
  unfold tx_out_id_bytes int_to_bytes_int
  by_cases h : (0 : Int) ≤ o.amount.num
  · simp only [h, if_true]
    simpa using Rat.num_nonneg.mp h
  · simp only [h, if_false]
    simp only [Option.isSome_none, Bool.false_eq_true, false_iff]
    exact fun hc => h (Rat.num_nonneg.mpr hc)

theorem get_id_isSome_iff (sha : Bytes → Bytes) (tx : Transaction) :
    (Transaction.get_id sha tx).isSome ↔ ∀ o ∈ tx.tx_outs, 0 ≤ o.amount := by
  unfold Transaction.get_id
  cases hm : mapOpt tx_out_id_bytes tx.tx_outs with
  | none =>
    simp only [Option.isSome_none, Bool.false_eq_true, false_iff]
    intro hall
    rcases mapOpt_eq_none_exists hm with ⟨o, ho, hnone⟩
    have := (tx_out_id_bytes_isSome_iff o).mpr (hall o ho)
    rw [hnone] at this
    simp at this
  | some bs =>
    simp only [Option.isSome_some, true_iff]
    intro o ho
    exact (tx_out_id_bytes_isSome_iff o).mp ((mapOpt_isSome_iff _ _).mp (by simp [hm]) o ho)

theorem validate_coinbase_true_id {sha : Bytes → Bytes} {tx : Transaction} {bi : Nat}
    (h : Transaction.validate_coinbase sha tx bi = some true) :
    (Transaction.get_id sha tx).isSome := by
  unfold Transaction.validate_coinbase at h
  split at h
  · cases h
  · rename_i gid hg
    simp [hg]

theorem validate_true_id {sha : Bytes → Bytes} {ver : Bytes → Bytes → Bytes → Bool}
    {tx : Transaction} {us : List UnspentTxOut}
    (h : Transaction.validate sha ver tx us = some true) :
    (Transaction.get_id sha tx).isSome := by
  rcases (validate_some_true_iff sha ver tx us).mp h with ⟨h1, -⟩
  simp [h1]

theorem process_some_spec {sha : Bytes → Bytes} {ver : Bytes → Bytes → Bytes → Bool}
    {txs : List Transaction} {us : List UnspentTxOut} {bi : Nat}
    {res : List UnspentTxOut}
    (h : Transaction.process_transactions sha ver txs us bi = some (some res)) :
    txs.all Transaction.has_valid_structure = true
      ∧ Transaction.validate_block_transactions sha ver txs us bi = some true
      ∧ res = UnspentTxOut.update_unspent_tx_outs txs us := by
  unfold Transaction.process_transactions at h
  split at h
  · simp at h
  · rename_i hstr
    split at h
    · cases h
    · simp at h
    · rename_i hv
      exact ⟨not_not.mp hstr, hv, (Option.some.inj (Option.some.inj h)).symm⟩

/-- C4: validation maintains nonnegativity of amounts.  Every transaction
accepted by `Transaction.validate` has only nonnegative output amounts
(acceptance requires recomputing the id, which fails on a negative
numerator), every transaction of a batch accepted by
`process_transactions` does as well, and a UTXO set produced by
`process_transactions` from a nonnegative UTXO set is nonnegative. -/
theorem validation_preserves_nonneg (sha : Bytes → Bytes)
    (ver : Bytes → Bytes → Bytes → Bool) :
    (∀ tx us, Transaction.validate sha ver tx us = some true →
        ∀ o ∈ tx.tx_outs, 0 ≤ o.amount)
      ∧ (∀ txs us bi res,
          Transaction.process_transactions sha ver txs us bi = some (some res) →
          ∀ tx ∈ txs, ∀ o ∈ tx.tx_outs, 0 ≤ o.amount)
      ∧ (∀ txs us bi res, (∀ u ∈ us, 0 ≤ u.amount) →
          Transaction.process_transactions sha ver txs us bi = some (some res) →
          ∀ u ∈ res, 0 ≤ u.amount) := by
  have hval : ∀ tx us, Transaction.validate sha ver tx us = some true →
      ∀ o ∈ tx.tx_outs, 0 ≤ o.amount :=
    fun tx us h => (get_id_isSome_iff sha tx).mp (validate_true_id h)
  have hbatch : ∀ txs us bi res,
      Transaction.process_transactions sha ver txs us bi = some (some res) →
      ∀ tx ∈ txs, ∀ o ∈ tx.tx_outs, 0 ≤ o.amount := by
    intro txs us bi res h tx htx
    rcases process_some_spec h with ⟨-, hv, -⟩
    rcases (vbt_some_true_iff sha ver txs us bi).mp hv with hnil | ⟨cb, rest, heq, hcb, -, hall⟩
    · subst hnil; cases htx
    · subst heq
      rcases List.mem_cons.mp htx with rfl | hmem
      · exact (get_id_isSome_iff sha tx).mp (validate_coinbase_true_id hcb)
      · exact hval tx us (hall tx hmem)
  refine ⟨hval, hbatch, ?_⟩
  intro txs us bi res hus h u hu
  rcases process_some_spec h with ⟨-, -, hres⟩
  subst hres
  unfold UnspentTxOut.update_unspent_tx_outs at hu
  rcases List.mem_append.mp hu with hold | hnew
  · exact hus u (List.mem_of_mem_filter hold)
  · rcases List.mem_flatten.mp hnew with ⟨l, hl, hul⟩
    rcases List.mem_map.mp hl with ⟨tx, htx, rfl⟩
    rcases List.mem_map.mp hul with ⟨p, hp, rfl⟩
    exact hbatch txs us bi _ h tx htx p.2
      (List.getElem?_mem (List.mem_enum_iff_getElem?.mp hp))

/-- Witness for C4 at a concrete nonnegative UTXO set and the empty batch. -/
theorem validation_preserves_nonneg_witness :
    (∀ u ∈ [(⟨[], 0, addrW, 50⟩ : UnspentTxOut)], 0 ≤ u.amount)
      ∧ Transaction.process_transactions csha cver_false [] [⟨[], 0, addrW, 50⟩] 0
          = some (some [⟨[], 0, addrW, 50⟩])
      ∧ ∀ u ∈ [(⟨[], 0, addrW, 50⟩ : UnspentTxOut)], 0 ≤ u.amount :=
  ⟨by decide, by decide,
    (validation_preserves_nonneg csha cver_false).2.2 [] [⟨[], 0, addrW, 50⟩] 0
      [⟨[], 0, addrW, 50⟩] (by decide) (by decide)⟩

/-! ## Claim C7: the transaction pool -/

theorem pyEq_TxIn_iff (a b : TxIn) :
    pyEq_TxIn a b = true ↔ (a.tx_out_id = b.tx_out_id ∧ a.tx_out_index = b.tx_out_index) := by
  simp [pyEq_TxIn]

theorem mem_pool_ins {pool : List Transaction} {t : Transaction} {i : TxIn}
    (ht : t ∈ pool) (hi : i ∈ t.tx_ins) : i ∈ TransactionPool.ins pool :=
  List.mem_flatten.mpr ⟨t.tx_ins, List.mem_map_of_mem _ ht, hi⟩

theorem is_valid_transaction_iff (pool : List Transaction) (tx : Transaction) :
    TransactionPool.is_valid_transaction pool tx = true ↔
      ∀ i ∈ tx.tx_ins, ∀ j ∈ TransactionPool.ins pool,
        ¬(i.tx_out_id = j.tx_out_id ∧ i.tx_out_index = j.tx_out_index) := by
  simp [TransactionPool.is_valid_transaction, pyEq_TxIn]

/-- The pairwise no-shared-input relation of the pool invariant. -/
theorem pool_invariant_preserved (sha : Bytes → Bytes) (ver : Bytes → Bytes → Bytes → Bool)
    (pool : List Transaction) (op : PoolOp)
    (hinv : List.Pairwise
      (fun t1 t2 => ∀ i1 ∈ t1.tx_ins, ∀ i2 ∈ t2.tx_ins,
        ¬(i1.tx_out_id = i2.tx_out_id ∧ i1.tx_out_index = i2.tx_out_index)) pool) :
    List.Pairwise
      (fun t1 t2 => ∀ i1 ∈ t1.tx_ins, ∀ i2 ∈ t2.tx_ins,
        ¬(i1.tx_out_id = i2.tx_out_id ∧ i1.tx_out_index = i2.tx_out_index))
      (apply_pool_op sha ver pool op) := by
  cases op with
  | update us =>
    show List.Pairwise _ (TransactionPool.update pool us)
    unfold TransactionPool.update
    dsimp only
    split_ifs
    · exact hinv
    · exact hinv.sublist (List.filter_sublist pool)
  | add tx us =>
    show List.Pairwise _
      (match TransactionPool.add_transaction sha ver pool tx us with
        | none => pool
        | some (_, pool') => pool')
    cases hadd : TransactionPool.add_transaction sha ver pool tx us with
    | none => exact hinv
    | some r =>
      unfold TransactionPool.add_transaction at hadd
      split at hadd
      · cases hadd
      · rename_i v hv
        split at hadd
        · cases hadd
          exact hinv
        · rename_i hcond
          push_neg at hcond
          cases hadd
          rw [List.pairwise_append]
          refine ⟨hinv, List.pairwise_singleton .., ?_⟩
          intro t ht b hb
          rcases List.mem_singleton.mp hb with rfl
          intro i1 hi1 i2 hi2 he
          exact (is_valid_transaction_iff pool b).mp hcond.2 i2 hi2 i1
            (mem_pool_ins ht hi1) ⟨he.1.symm, he.2.symm⟩

/-- C7 counterexample: adding a transaction whose validation raises (its
single input has a `None` signature and its referenced UTXO exists) makes
`add_transaction` itself raise — it returns neither `False` nor `True`,
refuting the claim's "add_transaction returns False ... whenever tx fails
validate(U)". -/
theorem add_transaction_cex_exception :
    TransactionPool.add_transaction csha cver_true []
      ⟨[⟨[], 0, none⟩], [], []⟩ [⟨[], 0, addrW, 0⟩] = none := by decide

/-- C7 (amended): starting from the empty pool, after any sequence of
`add_transaction`/`update` operations no two pooled transactions contain
inputs with the same `(tx_out_id, tx_out_index)`; `is_valid_transaction`
holds iff none of the transaction's inputs already appears among the pooled
inputs; `add_transaction` returns `False` leaving the pool unchanged when
`validate` returns `False` or an input conflicts with the pool, returns
`True` after appending the transaction when `validate` returns `True` and
no input conflicts, and propagates the exception (pool unchanged) when
`validate` raises. -/
theorem pool_spec (sha : Bytes → Bytes) (ver : Bytes → Bytes → Bytes → Bool) :
    (∀ ops : List PoolOp,
        List.Pairwise
          (fun t1 t2 => ∀ i1 ∈ t1.tx_ins, ∀ i2 ∈ t2.tx_ins,
            ¬(i1.tx_out_id = i2.tx_out_id ∧ i1.tx_out_index = i2.tx_out_index))
          (run_pool_ops sha ver ops))
      ∧ (∀ pool tx, TransactionPool.is_valid_transaction pool tx = true ↔
          ∀ i ∈ tx.tx_ins, ∀ j ∈ TransactionPool.ins pool,
            ¬(i.tx_out_id = j.tx_out_id ∧ i.tx_out_index = j.tx_out_index))
      ∧ (∀ pool tx us, Transaction.validate sha ver tx us = some false →
          TransactionPool.add_transaction sha ver pool tx us = some (false, pool))
      ∧ (∀ pool tx us, Transaction.validate sha ver tx us = some true →
          TransactionPool.is_valid_transaction pool tx = false →
          TransactionPool.add_transaction sha ver pool tx us = some (false, pool))
      ∧ (∀ pool tx us, Transaction.validate sha ver tx us = some true →
          TransactionPool.is_valid_transaction pool tx = true →
          TransactionPool.add_transaction sha ver pool tx us = some (true, pool ++ [tx]))
      ∧ (∀ pool tx us, Transaction.validate sha ver tx us = none →
          TransactionPool.add_transaction sha ver pool tx us = none) := by
  refine ⟨?_, is_valid_transaction_iff, ?_, ?_, ?_, ?_⟩
  · intro ops
    have hgen : ∀ (l : List PoolOp) (p : List Transaction),
        List.Pairwise
          (fun t1 t2 => ∀ i1 ∈ t1.tx_ins, ∀ i2 ∈ t2.tx_ins,
            ¬(i1.tx_out_id = i2.tx_out_id ∧ i1.tx_out_index = i2.tx_out_index)) p →
        List.Pairwise
          (fun t1 t2 => ∀ i1 ∈ t1.tx_ins, ∀ i2 ∈ t2.tx_ins,
            ¬(i1.tx_out_id = i2.tx_out_id ∧ i1.tx_out_index = i2.tx_out_index))
          (l.foldl (apply_pool_op sha ver) p) := by
      intro l
      induction l with
      | nil => intro p hp; exact hp
      | cons op rest ih =>
        intro p hp
        exact ih _ (pool_invariant_preserved sha ver p op hp)
    exact hgen ops [] List.Pairwise.nil
  · intro pool tx us hval
    simp [TransactionPool.add_transaction, hval]
  · intro pool tx us hval hivt
    simp [TransactionPool.add_transaction, hval, hivt]
  · intro pool tx us hval hivt
    simp [TransactionPool.add_transaction, hval, hivt]
  · intro pool tx us hval
    simp [TransactionPool.add_transaction, hval]

/-- Witness for C7: a trivially valid transaction (no inputs, no outputs)
enters the empty pool. -/
theorem pool_spec_witness :
    Transaction.validate csha cver_false ⟨[], [], []⟩ [] = some true
      ∧ TransactionPool.is_valid_transaction [] ⟨[], [], []⟩ = true
      ∧ TransactionPool.add_transaction csha cver_false [] ⟨[], [], []⟩ []
          = some (true, [⟨[], [], []⟩]) :=
  ⟨by decide, by decide,
    (pool_spec csha cver_false).2.2.2.2.1 [] ⟨[], [], []⟩ [] (by decide) (by decide)⟩

/-! ## Claim C10: unsigned inputs -/

/-- C10 counterexample: the referenced UTXO exists, the signature is `None`,
and `TxIn.validate` raises (returns no boolean at all) instead of returning
`False`. -/
theorem txIn_validate_cex_none_sig :
    UnspentTxOut.find ([] : Bytes) 0 [⟨[], 0, addrW, 0⟩] = some ⟨[], 0, addrW, 0⟩
      ∧ TxIn.validate cver_true ⟨[], 0, none⟩ ⟨[⟨[], 0, none⟩], [], []⟩
          [⟨[], 0, addrW, 0⟩] = none :=
  ⟨by decide, by decide⟩

/-- C10 (amended): `TxIn.validate` returns `False` on an empty-bytes
signature (whether or not the UTXO exists) and either returns `False` (UTXO
missing) or raises (UTXO found) on a `None` signature; in both cases it
never returns `True`, so a transaction containing such an input is never
accepted by `Transaction.validate`, can never be inserted into the
transaction pool, and never appears among the normal transactions of an
accepted block batch. -/
theorem unsigned_input_never_accepted (sha : Bytes → Bytes)
    (ver : Bytes → Bytes → Bytes → Bool) :
    (∀ (i : TxIn) (tx : Transaction) (us : List UnspentTxOut), i.signature = some [] →
        TxIn.validate ver i tx us = some false)
      ∧ (∀ (i : TxIn) (tx : Transaction) (us : List UnspentTxOut), i.signature = none →
          TxIn.validate ver i tx us = some false ∨ TxIn.validate ver i tx us = none)
      ∧ (∀ tx us i, i ∈ tx.tx_ins → (i.signature = none ∨ i.signature = some []) →
          Transaction.validate sha ver tx us ≠ some true)
      ∧ (∀ pool tx us p' i, i ∈ tx.tx_ins → (i.signature = none ∨ i.signature = some []) →
          TransactionPool.add_transaction sha ver pool tx us ≠ some (true, p'))
      ∧ (∀ txs us bi,
          Transaction.validate_block_transactions sha ver txs us bi = some true →
          ∀ tx ∈ txs.drop 1, ∀ i ∈ tx.tx_ins, ∃ s, i.signature = some s ∧ s ≠ []) := by
  have h3 : ∀ (tx : Transaction) us i, i ∈ tx.tx_ins →
      (i.signature = none ∨ i.signature = some []) →
      Transaction.validate sha ver tx us ≠ some true := by
    intro tx us i hi hsig hval
    rcases (validate_some_true_iff sha ver tx us).mp hval with ⟨-, hins, -⟩
    rcases (txIn_validate_some_true ver i tx us).mp (hins i hi) with ⟨u, -, s, hs, hsne, -⟩
    rcases hsig with h | h <;> rw [h] at hs
    · cases hs
    · exact hsne (Option.some.inj hs).symm
  refine ⟨?_, ?_, h3, ?_, ?_⟩
  · intro i tx us hsig
    unfold TxIn.validate
    cases hf : UnspentTxOut.find i.tx_out_id i.tx_out_index us with
    | none => rfl
    | some u => rw [hsig]; simp
  · intro i tx us hsig
    unfold TxIn.validate
    cases hf : UnspentTxOut.find i.tx_out_id i.tx_out_index us with
    | none => exact Or.inl rfl
    | some u => rw [hsig]; exact Or.inr rfl
  · intro pool tx us p' i hi hsig hadd
    unfold TransactionPool.add_transaction at hadd
    split at hadd
    · cases hadd
    · rename_i v hv
      split at hadd
      · cases hadd
      · rename_i hcond
        push_neg at hcond
        rw [hcond.1] at hv
        exact h3 tx us i hi hsig hv
  · intro txs us bi hvbt tx htx i hi
    rcases (vbt_some_true_iff sha ver txs us bi).mp hvbt with hnil | ⟨cb, rest, heq, -, -, hall⟩
    · subst hnil; cases htx
    · subst heq
      have htx2 : tx ∈ rest := by simpa using htx
      rcases (validate_some_true_iff sha ver tx us).mp (hall tx htx2) with ⟨-, hins, -⟩
      rcases (txIn_validate_some_true ver i tx us).mp (hins i hi) with ⟨u, -, s, hs, hsne, -⟩
      exact ⟨s, hs, hsne⟩

/-- Witness for C10: an empty-bytes signature yields `False` even though
the referenced UTXO exists. -/
theorem unsigned_input_never_accepted_witness :
    (⟨[], 0, some []⟩ : TxIn).signature = some []
      ∧ TxIn.validate cver_true ⟨[], 0, some []⟩ ⟨[], [], []⟩ [⟨[], 0, addrW, 0⟩]
          = some false :=
  ⟨rfl, (unsigned_input_never_accepted csha cver_true).1 ⟨[], 0, some []⟩ ⟨[], [], []⟩
    [⟨[], 0, addrW, 0⟩] rfl⟩

/-! ## Claim C9: wallet transaction construction -/

theorem find_aux_none_iff (amount : ℚ) :
    ∀ (l : List UnspentTxOut) (inc : List UnspentTxOut) (cur : ℚ),
      find_tx_outs_aux amount inc cur l = none ↔
        ∀ k, 0 < k → k ≤ l.length →
          cur + ((l.take k).map (·.amount)).sum ≤ amount := by
  intro l
  induction l with
  | nil =>
    intro inc cur
    constructor
    · intro _ k hk hle
      exact absurd (hk.trans_le hle) (lt_irrefl 0)
    · intro _
      rfl
  | cons u rest ih =>
    intro inc cur
    simp only [find_tx_outs_aux]
    split_ifs with hgt
    · rw [qadd_eq] at hgt
      constructor
      · intro h; cases h
      · intro h
        have h1 := h 1 one_pos (by simp)
        simp only [List.take_succ_cons, List.take_zero, List.map_cons, List.map_nil,
          List.sum_cons, List.sum_nil, add_zero] at h1
        linarith
    · rw [qadd_eq] at hgt
      rw [ih]
      constructor
      · intro h k hk hle
        cases k with
        | zero => exact absurd hk (lt_irrefl 0)
        | succ j =>
          simp only [List.take_succ_cons, List.map_cons, List.sum_cons]
          cases j with
          | zero =>
            simp only [List.take_zero, List.map_nil, List.sum_nil, add_zero]
            linarith [not_lt.mp hgt]
          | succ m =>
            have hj := h (m + 1) (Nat.succ_pos m) (by simp at hle ⊢; omega)
            rw [qadd_eq] at hj
            linarith
      · intro h k hk hle
        have hk1 := h (k + 1) (Nat.succ_pos k) (by simp; omega)
        rw [qadd_eq]
        simp only [List.take_succ_cons, List.map_cons, List.sum_cons] at hk1
        linarith

theorem find_aux_some_spec (amount : ℚ) :
    ∀ (l inc : List UnspentTxOut) (cur : ℚ) (inc' : List UnspentTxOut) (lo : ℚ),
      find_tx_outs_aux amount inc cur l = some (inc', lo) →
        ∃ k, 0 < k ∧ k ≤ l.length ∧ inc' = inc ++ l.take k
          ∧ lo = cur + ((l.take k).map (·.amount)).sum - amount
          ∧ amount < cur + ((l.take k).map (·.amount)).sum
          ∧ ∀ j, 0 < j → j < k → cur + ((l.take j).map (·.amount)).sum ≤ amount := by
  intro l
  induction l with
  | nil => intro inc cur inc' lo h; cases h
  | cons u rest ih =>
    intro inc cur inc' lo h
    simp only [find_tx_outs_aux] at h
    split_ifs at h with hgt
    · rw [qadd_eq] at hgt
      injection h with h2
      injection h2 with e1 e2
      subst e1
      subst e2
      refine ⟨1, one_pos, by simp, by simp, ?_, ?_, ?_⟩
      · rw [qsub_eq, qadd_eq]
        simp only [List.take_succ_cons, List.take_zero, List.map_cons, List.map_nil,
          List.sum_cons, List.sum_nil, add_zero]
      · simp only [List.take_succ_cons, List.take_zero, List.map_cons, List.map_nil,
          List.sum_cons, List.sum_nil, add_zero]
        linarith
      · intro j hj0 hjlt
        omega
    · rw [qadd_eq] at hgt
      rcases ih (inc ++ [u]) (qadd cur u.amount) inc' lo h with
        ⟨k, hk0, hkle, hinc, hlo, hlt, hmin⟩
      rw [qadd_eq] at hlo hlt
      simp only [qadd_eq] at hmin
      refine ⟨k + 1, Nat.succ_pos k, by simp; omega, ?_, ?_, ?_, ?_⟩
      · rw [hinc]
        simp
      · rw [hlo]
        simp only [List.take_succ_cons, List.map_cons, List.sum_cons]
        ring
      · simp only [List.take_succ_cons, List.map_cons, List.sum_cons]
        linarith
      · intro j hj0 hjlt
        cases j with
        | zero => exact absurd hj0 (lt_irrefl 0)
        | succ m =>
          simp only [List.take_succ_cons, List.map_cons, List.sum_cons]
          cases m with
          | zero =>
            simp only [List.take_zero, List.map_nil, List.sum_nil, add_zero]
            linarith [not_lt.mp hgt]
          | succ p =>
            have hp := hmin (p + 1) (Nat.succ_pos p) (by omega)
            linarith

theorem sign_input_some {sgn : Bytes → Bytes → Bytes} {pub : Bytes → Bytes}
    {tx : Transaction} {i : TxIn} {priv : Bytes} {us : List UnspentTxOut} {s : Bytes}
    (h : Transaction.sign_input sgn pub tx i priv us = some s) : s = sgn priv tx.id := by
  unfold Transaction.sign_input at h
  split at h
  · cases h
  · split at h
    · cases h
    · exact (Option.some.inj h).symm

theorem forall₂_eq_map {α β : Type} {g : α → β} :
    ∀ {l : List α} {ys : List β}, List.Forall₂ (fun a b => b = g a) l ys → ys = l.map g := by
  intro l ys h
  induction h with
  | nil => rfl
  | cons h1 _ ih => simp [h1, ih]

/-- C9: `Wallet.create_transaction(receiver, amount, U)` considers exactly
the UTXOs of `U` whose address is the wallet's public key, greedily
accumulates them in order until the running total strictly exceeds
`amount`, and fails (`InsufficientFunds`, modelled `none`) exactly when no
prefix total strictly exceeds `amount` — in particular spending exactly the
wallet's full nonnegative balance fails.  On success the outputs are
`[TxOut(receiver, amount), TxOut(my_address, acc − amount)]` (the change
output is always present since `acc > amount` strictly), the inputs
reference exactly the selected UTXOs, and every input is signed over the
transaction id. -/
theorem create_transaction_spec (sha : Bytes → Bytes) (sgn : Bytes → Bytes → Bytes)
    (pub : Bytes → Bytes) (priv receiver : Bytes) (amount : ℚ)
    (us : List UnspentTxOut) :
    (Wallet.find_tx_outs_for_amount amount (Wallet.my_unspent_tx_outs pub priv us) = none ↔
        ∀ k, 0 < k → k ≤ (Wallet.my_unspent_tx_outs pub priv us).length →
          (((Wallet.my_unspent_tx_outs pub priv us).take k).map (·.amount)).sum ≤ amount)
      ∧ (Wallet.find_tx_outs_for_amount amount (Wallet.my_unspent_tx_outs pub priv us)
            = none →
          Wallet.create_transaction sha sgn pub priv receiver amount us = none)
      ∧ ((∀ u ∈ Wallet.my_unspent_tx_outs pub priv us, 0 ≤ u.amount) →
          ((Wallet.my_unspent_tx_outs pub priv us).map (·.amount)).sum = amount →
          Wallet.create_transaction sha sgn pub priv receiver amount us = none)
      ∧ (∀ tx, Wallet.create_transaction sha sgn pub priv receiver amount us = some tx →
          ∃ k, 0 < k ∧ k ≤ (Wallet.my_unspent_tx_outs pub priv us).length
            ∧ tx.tx_ins = ((Wallet.my_unspent_tx_outs pub priv us).take k).map
                (fun u => ⟨u.tx_out_id, u.tx_out_index, some (sgn priv tx.id)⟩)
            ∧ tx.tx_outs = [⟨receiver, amount⟩,
                ⟨pub priv, (((Wallet.my_unspent_tx_outs pub priv us).take k).map
                  (·.amount)).sum - amount⟩]
            ∧ amount < (((Wallet.my_unspent_tx_outs pub priv us).take k).map
                (·.amount)).sum
            ∧ ∀ j, 0 < j → j < k →
                (((Wallet.my_unspent_tx_outs pub priv us).take j).map
                  (·.amount)).sum ≤ amount) := by
  set mine := Wallet.my_unspent_tx_outs pub priv us with hmine
  have hiff : Wallet.find_tx_outs_for_amount amount mine = none ↔
      ∀ k, 0 < k → k ≤ mine.length → ((mine.take k).map (·.amount)).sum ≤ amount := by
    rw [Wallet.find_tx_outs_for_amount, find_aux_none_iff]
    constructor
    · intro h k hk hle
      have := h k hk hle
      linarith
    · intro h k hk hle
      have := h k hk hle
      linarith
  have hnone : Wallet.find_tx_outs_for_amount amount mine = none →
      Wallet.create_transaction sha sgn pub priv receiver amount us = none := by
    intro h
    unfold Wallet.create_transaction
    rw [← hmine, h]
  refine ⟨hiff, hnone, ?_, ?_⟩
  · intro hpos htot
    refine hnone (hiff.mpr ?_)
    intro k hk hle
    have hsplit : ((mine.take k).map (·.amount)).sum + ((mine.drop k).map (·.amount)).sum
        = (mine.map (·.amount)).sum := by
      rw [← List.sum_append, ← List.map_append, List.take_append_drop]
    have hdropnn : 0 ≤ ((mine.drop k).map (·.amount)).sum := by
      apply List.sum_nonneg
      intro x hx
      rcases List.mem_map.mp hx with ⟨u, hu, rfl⟩
      exact hpos u (List.mem_of_mem_drop hu)
    linarith [hsplit, htot]
  · intro tx h
    unfold Wallet.create_transaction at h
    rw [← hmine] at h
    split at h
    · cases h
    · rename_i included left_over hfind
      rcases find_aux_some_spec amount mine [] 0 included left_over hfind with
        ⟨k, hk0, hkle, hinc, hlo, hlt, hmin⟩
      simp only [List.nil_append, zero_add] at hinc hlo hlt hmin
      dsimp only at h
      split at h
      · cases h
      · rename_i tid htid
        split at h
        · cases h
        · rename_i signed hsigned
          have htx : tx = ⟨signed, Wallet.create_tx_outs (pub priv) receiver amount
              left_over, tid⟩ := (Option.some.inj h).symm
          have hlopos : left_over > 0 := by rw [hlo]; linarith
          have houts : Wallet.create_tx_outs (pub priv) receiver amount left_over
              = [⟨receiver, amount⟩, ⟨pub priv, left_over⟩] := by
            unfold Wallet.create_tx_outs
            rw [if_pos hlopos]
          have hsigned2 : signed = (included.map fun u =>
              TxIn.mk u.tx_out_id u.tx_out_index none).map
                fun i => { i with signature := some (sgn priv tid) } := by
            apply forall₂_eq_map
            have h2 := (mapOpt_eq_some_iff _ _ _).mp hsigned
            refine List.Forall₂.imp ?_ h2
            intro i si hsi
            rcases Option.map_eq_some'.mp hsi with ⟨s, hs, rfl⟩
            rw [sign_input_some hs]
          refine ⟨k, hk0, hkle, ?_, ?_, ?_, ?_⟩
          · rw [htx]
            show signed = _
            rw [hsigned2, hinc, List.map_map]
            rfl
          · rw [htx]
            show Wallet.create_tx_outs _ _ _ _ = _
            rw [houts, hlo]
          · exact hlt
          · exact hmin

/-- Witness for C9: spending exactly the full balance (a single UTXO of 50,
amount = 50) fails with `InsufficientFunds`. -/
theorem create_transaction_spec_witness :
    (∀ u ∈ Wallet.my_unspent_tx_outs cpub [] [⟨[], 0, addrW, 50⟩], 0 ≤ u.amount)
      ∧ ((Wallet.my_unspent_tx_outs cpub [] [⟨[], 0, addrW, 50⟩]).map (·.amount)).sum = 50
      ∧ Wallet.create_transaction csha csign cpub [] addrW 50 [⟨[], 0, addrW, 50⟩]
          = none :=
  ⟨by decide, by simp [Wallet.my_unspent_tx_outs, addrW, cpub],
    (create_transaction_spec csha csign cpub [] addrW 50 [⟨[], 0, addrW, 50⟩]).2.2.1
      (by decide) (by simp [Wallet.my_unspent_tx_outs, addrW, cpub])⟩

